import Mathlib

/-!
Verification development for the oss_porter incremental synchronization
engine (crates oss-porter-core and oss-porter-cli).

Strings from the Rust code are modelled as lists of characters
(abbreviation Str).  The persisted state file is modelled by its optional
content (none = file absent).  External collaborators (the git binary and
the toml crate) are modelled by their documented contracts, restricted to
exactly the shapes this program exercises.
-/

namespace OssPorter

abbrev Str := List Char

/-- Whitespace as used by the trim operations in state.rs
(space, tab, newline, carriage return). -/
def isWs (c : Char) : Bool :=
  c = ' ' || c = '\t' || c = '\n' || c = '\r'

/-- A string is blank when every character is whitespace; this is
Rust s.trim().is_empty(). -/
def isBlank (s : Str) : Bool := s.all isWs

/-- Escape of one character inside a TOML basic string, as produced by
toml::to_string_pretty for the single string field of StateFileContent. -/
def escChar (c : Char) : Str :=
  if c = '"' then ['\\', '"']
  else if c = '\\' then ['\\', '\\']
  else if c = '\n' then ['\\', 'n']
  else if c = '\t' then ['\\', 't']
  else if c = '\r' then ['\\', 'r']
  else [c]

/-- Escape of a whole string inside a TOML basic string. -/
def escStr : Str → Str
  | [] => []
  | c :: cs => escChar c ++ escStr cs

/-- Inverse of escChar on the character following a backslash. -/
def unescChar (c : Char) : Option Char :=
  if c = '"' then some '"'
  else if c = '\\' then some '\\'
  else if c = 'n' then some '\n'
  else if c = 't' then some '\t'
  else if c = 'r' then some '\r'
  else none

/-- Scan the body of a TOML basic string up to the closing quote.
Returns the decoded string and the remainder after the quote. -/
def scanBasic : Str → Option (Str × Str)
  | [] => none
  | c :: rest =>
    if c = '"' then some ([], rest)
    else if c = '\\' then
      match rest with
      | [] => none
      | e :: rest2 =>
        match unescChar e with
        | none => none
        | some d =>
          match scanBasic rest2 with
          | none => none
          | some (s, r) => some (d :: s, r)
    else
      match scanBasic rest with
      | none => none
      | some (s, r) => some (c :: s, r)

/-- The one key of the persisted record: field last_synced_internal_commit
of StateFileContent in state.rs. -/
def KEY : Str :=
  ['l', 'a', 's', 't', '_', 's', 'y', 'n', 'c', 'e', 'd', '_',
   'i', 'n', 't', 'e', 'r', 'n', 'a', 'l', '_',
   'c', 'o', 'm', 'm', 'i', 't']

/-- Strip an expected key from the front of a line. -/
def stripKey : Str → Str → Option Str
  | [], l => some l
  | _ :: _, [] => none
  | k :: ks, c :: cs => if c = k then stripKey ks cs else none

/-- Drop TOML inline whitespace (spaces and tabs). -/
def dropSpaces (l : Str) : Str := l.dropWhile (fun c => c = ' ' || c = '\t')

/-- Parse one assignment line of the state file:
last_synced_internal_commit = "value". -/
def parseAssign (l : Str) : Option Str :=
  match stripKey KEY l with
  | none => none
  | some l1 =>
    match dropSpaces l1 with
    | [] => none
    | c :: l2 =>
      if c = '=' then
        match dropSpaces l2 with
        | [] => none
        | d :: l3 =>
          if d = '"' then
            match scanBasic l3 with
            | some (s, r) => if isBlank r then some s else none
            | none => none
          else none
      else none

/-- Split a string into lines at newline characters. -/
def splitOnNl : Str → List Str
  | [] => [[]]
  | c :: rest =>
    if c = '\n' then [] :: splitOnNl rest
    else
      match splitOnNl rest with
      | [] => [[c]]
      | l :: ls => (c :: l) :: ls

/-- Parse the lines of the state file, tracking the optional field and
rejecting a duplicated key; blank lines and comment lines are skipped. -/
def parseLines : List Str → Option Str → Option (Option Str)
  | [], acc => some acc
  | l :: ls, acc =>
    if isBlank l then parseLines ls acc
    else
      if (dropSpaces l).head? = some '#' then parseLines ls acc
      else
        match parseAssign (dropSpaces l) with
        | none => none
        | some v =>
          match acc with
          | some _ => none
          | none => parseLines ls (some v)

/-- TOML document parser restricted to the schema of StateFileContent:
at most one assignment of the key last_synced_internal_commit to a basic
string.  Returns none on a syntax error (toml::from_str failing), and
otherwise the parsed optional field. -/
def parseStateToml (content : Str) : Option (Option Str) :=
  parseLines (splitOnNl content) none

/-- Serialization of StateFileContent by toml::to_string_pretty: an absent
field is omitted (empty document), a present field becomes one
key = "value" line. -/
def serializeState : Option Str → Str
  | none => []
  | some v => KEY ++ (' ' :: '=' :: ' ' :: '"' :: (escStr v ++ ['"', '\n']))

/-- The errors of the PorterError enum that the modelled code paths can
produce. -/
inductive PorterError where
  | io (path : Str)
  | tomlParse (path : Str)
  | gitOperation (msg : Str)
  | gitCommand (cmd : Str) (cwd : Str) (status : Str) (stdout : Str) (stderr : Str)
  deriving DecidableEq, Repr

/-- File name of the persisted cursor record, STATE_FILE_NAME in state.rs. -/
def STATE_FILE_NAME : Str := ".oss_porter_state.toml".data

/-- The fields of ProjectConfig used by the sync engine; paths are lists of
components. -/
structure ProjectConfig where
  internal_repo_path : List Str
  project_subdir : List Str
  output_path : List Str
  internal_branch : Str
  deriving DecidableEq, Repr

/-- Path of the state file: internal_repo_path joined with project_subdir
joined with STATE_FILE_NAME (get_internal_state_file_path in state.rs). -/
def get_internal_state_file_path (config : ProjectConfig) : List Str :=
  config.internal_repo_path ++ config.project_subdir ++ [STATE_FILE_NAME]

/-- read_last_synced_commit of state.rs over the state file content
(none = the file does not exist).  Follows the source line by line:
absent file gives Ok(None); blank content gives Ok(None); a TOML syntax
error gives Err(TomlParse with the path); a stored blank identifier is
normalized to Ok(None). -/
def read_last_synced_commit (path : Str) (file : Option Str) :
    Except PorterError (Option Str) :=
  match file with
  | none => .ok none
  | some content =>
    if isBlank content then .ok none
    else
      match parseStateToml content with
      | none => .error (.tomlParse path)
      | some state =>
        match state with
        | some s => if isBlank s then .ok none else .ok (some s)
        | none => .ok none

/-- write_last_synced_commit of state.rs: serializes the optional cursor
and overwrites the state file unconditionally; the result is the new file
content. -/
def write_last_synced_commit (commit_hash : Option Str) : Str :=
  serializeState commit_hash

deriving instance DecidableEq for Except

/-- The single line that serializeState produces for a present cursor,
without its trailing newline. -/
def lineFor (v : Str) : Str :=
  KEY ++ (' ' :: '=' :: ' ' :: '"' :: (escStr v ++ ['"']))

/- ---------------------------------------------------------------------
Commit discovery: get_internal_commits_since in update.rs.
--------------------------------------------------------------------- -/

/-- One candidate commit: CommitInfo in update.rs. -/
structure CommitInfo where
  hash : Str
  subject : Str
  deriving DecidableEq, Repr

/-- Split a log line at the first NUL separator, as line.splitn(2, NUL)
does in get_internal_commits_since: some pair when the line contains a
NUL, none otherwise (the line is then dropped with a warning). -/
def splitNul : Str → Option (Str × Str)
  | [] => none
  | c :: rest =>
    if c = '\x00' then some ([], rest)
    else
      match splitNul rest with
      | none => none
      | some (a, b) => some (c :: a, b)

/-- Trim leading and trailing whitespace, Rust str::trim. -/
def trimStr (s : Str) : Str :=
  ((s.dropWhile isWs).reverse.dropWhile isWs).reverse

/-- Parsing of the git log stdout in get_internal_commits_since: the
trimmed output is split into lines which are iterated in reverse order
(so the resulting queue is ordered oldest first), empty lines are
skipped, and each remaining line is split at the NUL separator into hash
and subject; an unparsable line is dropped. -/
def parseLog (stdout : Str) : List CommitInfo :=
  (splitOnNl (trimStr stdout)).reverse.foldl
    (fun acc line =>
      if line.isEmpty then acc
      else
        match splitNul line with
        | some (h, s) => acc ++ [⟨h, s⟩]
        | none => acc)
    []

/-- The precondition error message of get_internal_commits_since when no
previous sync commit reference is available. -/
def msgNoSinceRef : Str :=
  "Cannot determine update range: no previous sync commit reference provided.".data

/-- Result of one external command run through run_git_command in
utils.rs: a spawn failure (Io error with the working directory), a
non-zero exit (GitCommand error carrying command, cwd, status and
captured output), or captured stdout on success. -/
inductive RunResult where
  | ioErr (cwd : Str)
  | cmdFail (cmd : Str) (cwd : Str) (status : Str) (stdout : Str) (stderr : Str)
  | ok (stdout : Str)
  deriving DecidableEq, Repr

/-- Environment of one discovery call: whether the initial fetch fails
(its failure is only logged as a warning) and the result of the git log
command. -/
structure GitWorld where
  fetchFails : Bool
  logRun : RunResult
  deriving DecidableEq, Repr

/-- get_internal_commits_since of update.rs: the fetch result is ignored
apart from logging; an absent cursor reference is a GitOperation
precondition error; otherwise the git log output is parsed into the
oldest-first review queue. -/
def get_internal_commits_since (world : GitWorld) (since_ref : Option Str) :
    Except PorterError (List CommitInfo) :=
  match since_ref with
  | none => .error (.gitOperation msgNoSinceRef)
  | some _ =>
    match world.logRun with
    | .ioErr cwd => .error (.io cwd)
    | .cmdFail c w st o e => .error (.gitCommand c w st o e)
    | .ok stdout => .ok (parseLog stdout)

/-- The commits strictly after the cursor on a linear oldest-first
history: the git range cursor..tip listed by the next discovery run. -/
def rangeAfter : List Str → Str → List Str
  | [], _ => []
  | h :: t, cursor => if h = cursor then t else rangeAfter t cursor

/- ---------------------------------------------------------------------
Patch application: apply_commit_to_output in update.rs.
--------------------------------------------------------------------- -/

/-- Outcome classification of one patch application: ApplyResult in
update.rs. -/
inductive ApplyResult where
  | success
  | conflict
  | failure (stderr : Str)
  deriving DecidableEq, Repr

/-- Does the needle occur at the start of the haystack. -/
def startsWith : Str → Str → Bool
  | _, [] => true
  | [], _ :: _ => false
  | c :: cs, n :: ns => c = n && startsWith cs ns

/-- Substring containment, Rust str::contains. -/
def containsSub : Str → Str → Bool
  | [], needle => needle.isEmpty
  | c :: cs, needle => startsWith (c :: cs) needle || containsSub cs needle

/-- Conflict detection in apply_commit_to_output: the stdout and stderr
of a failed git am run are searched for the textual conflict
indicators. -/
def conflictIndicated (stdout stderr : Str) : Bool :=
  containsSub stdout "Patch failed to apply".data
  || containsSub stderr "Patch failed to apply".data
  || containsSub stdout "conflict".data
  || containsSub stderr "conflict".data
  || containsSub stdout "git am --continue".data
  || containsSub stderr "git am --continue".data

/-- Observable result of a git am invocation in the output repository. -/
structure AmRun where
  exitOk : Bool
  stdout : Str
  stderr : Str
  deriving DecidableEq, Repr

/-- Ghost-instrumented result of apply_commit_to_output: the
classification returned to the caller, whether the apply tool (git am)
was invoked at all, and whether an am abort was issued before
returning. -/
structure ApplyRun where
  result : ApplyResult
  invokedAm : Bool
  abortIssued : Bool
  deriving DecidableEq, Repr

/-- apply_commit_to_output of update.rs, over the generated relocated
patch content and the am run it would launch.  An empty relocated patch
short-circuits to Success without invoking git am; a clean am exit is
Success; a failed am whose output carries conflict indicators is Conflict
with the paused session left in place; any other am failure is Failure
with a best-effort am abort issued first.  The abort result abortOk is
only logged and does not change the returned classification. -/
def apply_commit_to_output (patchContent : Str) (am : AmRun) (abortOk : Bool) :
    ApplyRun :=
  if patchContent.isEmpty then ⟨.success, false, false⟩
  else if am.exitOk then ⟨.success, true, false⟩
  else if conflictIndicated am.stdout am.stderr then ⟨.conflict, true, false⟩
  else ⟨.failure am.stderr, true, true⟩

/-- The argument list apply_commit_to_output passes to the apply tool. -/
def amArgs : List Str :=
  ["am".data, "--keep-cr".data, "--committer-date-is-author-date".data,
   "--3way".data]

/-- Commit metadata as carried by a format-patch patch. -/
structure CommitMeta where
  author : Str
  authorDate : Nat
  deriving DecidableEq, Repr

/-- Models the documented metadata behavior of the external apply tool
(git am): the author and author date of the patch are preserved in the
new commit; the committer timestamp is the local time of the run, unless
the flag --committer-date-is-author-date is passed, in which case it is
the original author date.  Returns the preserved metadata and the
committer timestamp. -/
def amCommitMeta (patch : CommitMeta) (localNow : Nat) (flags : List Str) :
    CommitMeta × Nat :=
  (patch,
    if "--committer-date-is-author-date".data ∈ flags then patch.authorDate
    else localNow)

/- ---------------------------------------------------------------------
The review loop of handle_update in cli/src/main.rs.
--------------------------------------------------------------------- -/

/-- One operator decision at the review prompt of handle_update, plus the
two outcomes of the fallback prompt shown when fetching the diff fails. -/
inductive Decision where
  | yes
  | no
  | defer
  | applyAll
  | quit
  | diffFailSkip
  | diffFailQuit
  deriving DecidableEq, Repr

/-- The mutable state of the review loop in handle_update, extended with
a ghost field successesLog recording every hash that received a Success
outcome, in processing order. -/
structure LoopState where
  queue : List CommitInfo
  lastApplied : Option Str
  applyAllMode : Bool
  userQuit : Bool
  skipped : List CommitInfo
  successesLog : List Str
  deriving DecidableEq, Repr

/-- The review loop of handle_update.  decisions feeds the interactive
prompt and is consumed only outside apply-all mode; outcomes feeds the
classification returned by apply_commit_to_output and is consumed at
every apply attempt.  fuel bounds the number of iterations: the loop can
run longer than the initial queue because Skip-for-now re-queues a
commit, and a run that exhausts its inputs or fuel simply stops, leaving
the state as it stands.  Mirrors the source: Yes applies and on Success
advances successfully_applied_commit, on Conflict or Failure sets
user_quit and breaks; No records a skip; Skip-for-now pushes the commit
to the back of the queue; Apply-ALL re-queues the commit at the front and
enters apply-all mode; Quit breaks; the two diff-failure branches record
a skip or break. -/
def runLoop : Nat → LoopState → List Decision → List ApplyResult → LoopState
  | 0, st, _, _ => st
  | fuel + 1, st, decisions, outcomes =>
    match st.queue with
    | [] => st
    | ci :: rest =>
      if st.applyAllMode then
        match outcomes with
        | [] => st
        | r :: outcomes2 =>
          match r with
          | .success =>
            runLoop fuel
              { st with
                queue := rest,
                lastApplied := some ci.hash,
                successesLog := st.successesLog ++ [ci.hash] }
              decisions outcomes2
          | _ => { st with queue := rest, userQuit := true }
      else
        match decisions with
        | [] => st
        | d :: decisions2 =>
          match d with
          | .yes =>
            match outcomes with
            | [] => st
            | r :: outcomes2 =>
              match r with
              | .success =>
                runLoop fuel
                  { st with
                    queue := rest,
                    lastApplied := some ci.hash,
                    successesLog := st.successesLog ++ [ci.hash] }
                  decisions2 outcomes2
              | _ => { st with queue := rest, userQuit := true }
          | .no =>
            runLoop fuel
              { st with queue := rest, skipped := st.skipped ++ [ci] }
              decisions2 outcomes
          | .defer =>
            runLoop fuel { st with queue := rest ++ [ci] } decisions2 outcomes
          | .applyAll =>
            runLoop fuel { st with queue := ci :: rest, applyAllMode := true }
              decisions2 outcomes
          | .quit => { st with queue := rest, userQuit := true }
          | .diffFailSkip =>
            runLoop fuel
              { st with queue := rest, skipped := st.skipped ++ [ci] }
              decisions2 outcomes
          | .diffFailQuit => { st with queue := rest, userQuit := true }

/-- Initial loop state of handle_update: the discovered queue oldest
first, and successfully_applied_commit initialized to the cursor read at
the start of the run. -/
def initState (lastSyncedRef : Str) (queue : List CommitInfo) : LoopState :=
  { queue := queue,
    lastApplied := some lastSyncedRef,
    applyAllMode := false,
    userQuit := false,
    skipped := [],
    successesLog := [] }

/-- One full update run of handle_update, from the loaded queue to the
loop state whose lastApplied field is then persisted unconditionally by
write_last_synced_commit. -/
def handle_update_run (lastSyncedRef : Str) (queue : List CommitInfo)
    (decisions : List Decision) (outcomes : List ApplyResult) (fuel : Nat) :
    LoopState :=
  runLoop fuel (initState lastSyncedRef queue) decisions outcomes

/-- The last element of a success log, or a default cursor when the log
is empty. -/
def lastOr : List Str → Option Str → Option Str
  | [], d => d
  | h :: t, _ => lastOr t (some h)

/- ---------------------------------------------------------------------
Lemmas about the state-file codec.
--------------------------------------------------------------------- -/

lemma stripKey_append (k l : Str) : stripKey k (k ++ l) = some l := by
  induction k with
  | nil => rfl
  | cons c cs ih => simp [stripKey, ih]

lemma scanBasic_cons (c : Char) (rest : Str) :
    scanBasic (c :: rest) =
      (if c = '"' then some ([], rest)
      else if c = '\\' then
        match rest with
        | [] => none
        | e :: rest2 =>
          match unescChar e with
          | none => none
          | some d =>
            match scanBasic rest2 with
            | none => none
            | some (s, r) => some (d :: s, r)
      else
        match scanBasic rest with
        | none => none
        | some (s, r) => some (c :: s, r)) := by
  rw [scanBasic.eq_def]
  rfl

lemma isBlank_nil : isBlank ([] : Str) = true := rfl

lemma scanBasic_escStr (s : Str) : ∀ r : Str,
    scanBasic (escStr s ++ ('"' :: r)) = some (s, r) := by
  induction s with
  | nil => intro r; simp [escStr, scanBasic_cons]
  | cons c cs ih =>
    intro r
    by_cases h1 : c = '"'
    · subst h1; simp [escStr, escChar, scanBasic_cons, unescChar, ih]
    · by_cases h2 : c = '\\'
      · subst h2; simp [escStr, escChar, scanBasic_cons, unescChar, ih]
      · by_cases h3 : c = '\n'
        · subst h3; simp [escStr, escChar, scanBasic_cons, unescChar, ih]
        · by_cases h4 : c = '\t'
          · subst h4; simp [escStr, escChar, scanBasic_cons, unescChar, ih]
          · by_cases h5 : c = '\r'
            · subst h5; simp [escStr, escChar, scanBasic_cons, unescChar, ih]
            · simp [escStr, escChar, h1, h2, h3, h4, h5, scanBasic_cons, ih]

lemma nl_not_mem_escChar (c : Char) : '\n' ∉ escChar c := by
  by_cases h1 : c = '"'
  · simp [escChar, h1]
  · by_cases h2 : c = '\\'
    · simp [escChar, h1, h2]
    · by_cases h3 : c = '\n'
      · simp [escChar, h1, h2, h3]
      · by_cases h4 : c = '\t'
        · simp [escChar, h1, h2, h3, h4]
        · by_cases h5 : c = '\r'
          · simp [escChar, h1, h2, h3, h4, h5]
          · simp [escChar, h1, h2, h3, h4, h5]
            exact fun e => h3 e.symm

lemma nl_not_mem_escStr (s : Str) : '\n' ∉ escStr s := by
  induction s with
  | nil => simp [escStr]
  | cons c cs ih =>
    simp only [escStr, List.mem_append]
    rintro (h | h)
    · exact nl_not_mem_escChar c h
    · exact ih h

lemma splitOnNl_append (l : Str) : ∀ (r x : Str) (xs : List Str),
    '\n' ∉ l → splitOnNl r = x :: xs →
    splitOnNl (l ++ r) = (l ++ x) :: xs := by
  induction l with
  | nil => intro r x xs _ hr; simpa using hr
  | cons c cs ih =>
    intro r x xs hl hr
    have hc : ¬ c = '\n' := fun e => hl (by simp [e])
    have hcs : '\n' ∉ cs := fun m => hl (List.mem_cons_of_mem _ m)
    simp [splitOnNl, hc, ih r x xs hcs hr]

lemma nl_not_mem_lineFor (v : Str) : '\n' ∉ lineFor v := by
  intro h
  simp only [lineFor] at h
  rcases List.mem_append.mp h with h | h
  · exact absurd h (by decide)
  · simp only [List.mem_cons] at h
    rcases h with h | h | h | h | h
    · exact absurd h (by decide)
    · exact absurd h (by decide)
    · exact absurd h (by decide)
    · exact absurd h (by decide)
    · rcases List.mem_append.mp h with h | h
      · exact nl_not_mem_escStr v h
      · exact absurd h (by decide)

lemma serializeState_some (v : Str) :
    serializeState (some v) = lineFor v ++ ['\n'] := by
  simp [serializeState, lineFor]

lemma isBlank_lineFor (v : Str) : isBlank (lineFor v) = false := by
  simp only [isBlank, List.all_eq_false]
  refine ⟨'l', ?_, by decide⟩
  simp [lineFor, KEY]

lemma dropSpaces_lineFor (v : Str) : dropSpaces (lineFor v) = lineFor v := by
  simp [lineFor, KEY, dropSpaces]

lemma head_lineFor (v : Str) : (lineFor v).head? = some 'l' := by
  simp [lineFor, KEY]

lemma parseAssign_lineFor (v : Str) : parseAssign (lineFor v) = some v := by
  have h := stripKey_append KEY (' ' :: '=' :: ' ' :: '"' :: (escStr v ++ ['"']))
  have hscan := scanBasic_escStr v []
  simp only [lineFor, parseAssign, h, dropSpaces, List.dropWhile]
  simp [hscan, isBlank_nil]

lemma parseStateToml_serializeState (v : Str) :
    parseStateToml (serializeState (some v)) = some (some v) := by
  have hnl : splitOnNl (['\n'] : Str) = [[], []] := rfl
  have hsplit : splitOnNl (lineFor v ++ ['\n']) = [lineFor v, []] := by
    simpa using splitOnNl_append (lineFor v) ['\n'] [] [[]] (nl_not_mem_lineFor v) hnl
  rw [parseStateToml, serializeState_some, hsplit]
  simp [parseLines, isBlank_lineFor, dropSpaces_lineFor, head_lineFor,
    parseAssign_lineFor, isBlank_nil]

lemma isBlank_serializeState_some (v : Str) :
    isBlank (serializeState (some v)) = false := by
  simp only [isBlank, List.all_eq_false]
  refine ⟨'l', ?_, by decide⟩
  simp [serializeState, KEY]

/- ---------------------------------------------------------------------
Claims about the sync cursor store.
--------------------------------------------------------------------- -/

/-- C3: round-trip of the sync cursor store.  Writing Some(v) for a
non-blank commit identifier v and then reading returns Some(v); writing
None and then reading returns None. -/
theorem c3_cursor_roundtrip (path v : Str) (hv : isBlank v = false) :
    read_last_synced_commit path (some (write_last_synced_commit (some v)))
      = .ok (some v)
    ∧ read_last_synced_commit path (some (write_last_synced_commit none))
      = .ok none := by
  constructor
  · simp [read_last_synced_commit, write_last_synced_commit,
      isBlank_serializeState_some, parseStateToml_serializeState, hv]
  · simp [read_last_synced_commit, write_last_synced_commit, serializeState,
      isBlank]

theorem c3_cursor_roundtrip_witness :
    isBlank ['a', 'b', 'c'] = false
    ∧ (read_last_synced_commit []
          (some (write_last_synced_commit (some ['a', 'b', 'c'])))
        = .ok (some ['a', 'b', 'c'])
      ∧ read_last_synced_commit [] (some (write_last_synced_commit none))
        = .ok none) :=
  ⟨by decide, c3_cursor_roundtrip [] ['a', 'b', 'c'] (by decide)⟩

/-- C4: the cursor-store read returns Ok(None), not an error, when the
state file is absent, when its content is blank, and when the stored
identifier is blank; in particular a missing file is never a failure. -/
theorem c4_read_absent_or_blank (path content s c2 : Str)
    (hb : parseStateToml content = some (some s)) (hs : isBlank s = true)
    (h2 : isBlank c2 = true) :
    read_last_synced_commit path none = .ok none
    ∧ read_last_synced_commit path (some c2) = .ok none
    ∧ read_last_synced_commit path (some content) = .ok none := by
  refine ⟨rfl, by simp [read_last_synced_commit, h2], ?_⟩
  by_cases hbc : isBlank content
  · simp [read_last_synced_commit, hbc]
  · simp [read_last_synced_commit, hbc, hb, hs]

theorem c4_read_absent_or_blank_witness :
    parseStateToml (serializeState (some [' '])) = some (some [' '])
    ∧ isBlank [' '] = true
    ∧ (read_last_synced_commit [] none = .ok none
      ∧ read_last_synced_commit [] (some [' ']) = .ok none
      ∧ read_last_synced_commit [] (some (serializeState (some [' '])))
        = .ok none) :=
  ⟨by decide, by decide,
    c4_read_absent_or_blank [] (serializeState (some [' '])) [' '] [' ']
      (by decide) (by decide) (by decide)⟩

/-- C10: when the state file exists with non-blank content that is not
valid key/value syntax, read returns a parse error carrying the file path,
rather than None. -/
theorem c10_corrupt_state_blocks (path content : Str)
    (h1 : isBlank content = false) (h2 : parseStateToml content = none) :
    read_last_synced_commit path (some content) = .error (.tomlParse path) := by
  simp [read_last_synced_commit, h1, h2]

theorem c10_corrupt_state_blocks_witness :
    isBlank "garbage".data = false
    ∧ parseStateToml "garbage".data = none
    ∧ read_last_synced_commit ['p'] (some "garbage".data)
      = .error (.tomlParse ['p']) :=
  ⟨by decide, by decide,
    c10_corrupt_state_blocks ['p'] "garbage".data (by decide) (by decide)⟩

/-- C9 counterexample: the persisted cursor record is not named
.sync_state; STATE_FILE_NAME in state.rs is .oss_porter_state.toml. -/
theorem c9_counterexample : STATE_FILE_NAME ≠ ".sync_state".data := by decide

/-- C9 amended: the persisted cursor record is stored at
internal_repo_path/project_subdir/.oss_porter_state.toml, as a key/value
file with the single optional string field last_synced_internal_commit. -/
theorem c9_state_record (config : ProjectConfig) (v : Str) :
    get_internal_state_file_path config
      = config.internal_repo_path ++ config.project_subdir ++ [STATE_FILE_NAME]
    ∧ STATE_FILE_NAME = ".oss_porter_state.toml".data
    ∧ parseStateToml (serializeState (some v)) = some (some v)
    ∧ serializeState none = [] :=
  ⟨rfl, rfl, parseStateToml_serializeState v, rfl⟩

/- ---------------------------------------------------------------------
Invariants of the review loop.
--------------------------------------------------------------------- -/

lemma runLoop_lastApplied : ∀ (fuel : Nat) (st : LoopState)
    (ds : List Decision) (os : List ApplyResult),
    ∃ t : List Str,
      (runLoop fuel st ds os).successesLog = st.successesLog ++ t
      ∧ (runLoop fuel st ds os).lastApplied = lastOr t st.lastApplied := by
  intro fuel
  induction fuel with
  | zero => intro st ds os; exact ⟨[], by simp [runLoop], by simp [runLoop, lastOr]⟩
  | succ fuel ih =>
    intro st ds os
    cases hq : st.queue with
    | nil => exact ⟨[], by simp [runLoop, hq], by simp [runLoop, hq, lastOr]⟩
    | cons ci rest =>
      by_cases ha : st.applyAllMode = true
      · cases os with
        | nil => exact ⟨[], by simp [runLoop, hq, ha], by simp [runLoop, hq, ha, lastOr]⟩
        | cons r os2 =>
          cases r with
          | success =>
            obtain ⟨t, h1, h2⟩ := ih
              { st with
                queue := rest,
                lastApplied := some ci.hash,
                successesLog := st.successesLog ++ [ci.hash] } ds os2
            rw [ha] at h1 h2
            refine ⟨ci.hash :: t, ?_, ?_⟩
            · simp only [runLoop, hq, ha, if_true]
              rw [h1]
              simp
            · simp only [runLoop, hq, ha, if_true]
              rw [h2]
              rfl
          | conflict =>
            exact ⟨[], by simp [runLoop, hq, ha], by simp [runLoop, hq, ha, lastOr]⟩
          | failure e =>
            exact ⟨[], by simp [runLoop, hq, ha], by simp [runLoop, hq, ha, lastOr]⟩
      · rw [Bool.not_eq_true] at ha
        cases ds with
        | nil => exact ⟨[], by simp [runLoop, hq, ha], by simp [runLoop, hq, ha, lastOr]⟩
        | cons d ds2 =>
          cases d with
          | yes =>
            cases os with
            | nil => exact ⟨[], by simp [runLoop, hq, ha], by simp [runLoop, hq, ha, lastOr]⟩
            | cons r os2 =>
              cases r with
              | success =>
                obtain ⟨t, h1, h2⟩ := ih
                  { st with
                    queue := rest,
                    lastApplied := some ci.hash,
                    successesLog := st.successesLog ++ [ci.hash] } ds2 os2
                rw [ha] at h1 h2
                refine ⟨ci.hash :: t, ?_, ?_⟩
                · simp only [runLoop, hq, ha, if_false, Bool.false_eq_true]
                  rw [h1]
                  simp
                · simp only [runLoop, hq, ha, if_false, Bool.false_eq_true]
                  rw [h2]
                  rfl
              | conflict =>
                exact ⟨[], by simp [runLoop, hq, ha], by simp [runLoop, hq, ha, lastOr]⟩
              | failure e =>
                exact ⟨[], by simp [runLoop, hq, ha], by simp [runLoop, hq, ha, lastOr]⟩
          | no =>
            obtain ⟨t, h1, h2⟩ := ih
              { st with queue := rest, skipped := st.skipped ++ [ci] } ds2 os
            rw [ha] at h1 h2
            exact ⟨t, by simp only [runLoop, hq, ha, if_false, Bool.false_eq_true]; rw [h1],
              by simp only [runLoop, hq, ha, if_false, Bool.false_eq_true]; rw [h2]⟩
          | defer =>
            obtain ⟨t, h1, h2⟩ := ih { st with queue := rest ++ [ci] } ds2 os
            rw [ha] at h1 h2
            exact ⟨t, by simp only [runLoop, hq, ha, if_false, Bool.false_eq_true]; rw [h1],
              by simp only [runLoop, hq, ha, if_false, Bool.false_eq_true]; rw [h2]⟩
          | applyAll =>
            obtain ⟨t, h1, h2⟩ := ih
              { st with queue := ci :: rest, applyAllMode := true } ds2 os
            exact ⟨t, by simp only [runLoop, hq, ha, if_false, Bool.false_eq_true]; rw [h1],
              by simp only [runLoop, hq, ha, if_false, Bool.false_eq_true]; rw [h2]⟩
          | quit =>
            exact ⟨[], by simp [runLoop, hq, ha], by simp [runLoop, hq, ha, lastOr]⟩
          | diffFailSkip =>
            obtain ⟨t, h1, h2⟩ := ih
              { st with queue := rest, skipped := st.skipped ++ [ci] } ds2 os
            rw [ha] at h1 h2
            exact ⟨t, by simp only [runLoop, hq, ha, if_false, Bool.false_eq_true]; rw [h1],
              by simp only [runLoop, hq, ha, if_false, Bool.false_eq_true]; rw [h2]⟩
          | diffFailQuit =>
            exact ⟨[], by simp [runLoop, hq, ha], by simp [runLoop, hq, ha, lastOr]⟩

lemma runLoop_no_defer : ∀ (fuel : Nat) (st : LoopState)
    (ds : List Decision) (os : List ApplyResult),
    Decision.defer ∉ ds →
    ∃ t : List Str,
      (runLoop fuel st ds os).successesLog = st.successesLog ++ t
      ∧ List.Sublist t (st.queue.map CommitInfo.hash) := by
  intro fuel
  induction fuel with
  | zero =>
    intro st ds os _
    exact ⟨[], by simp [runLoop], List.nil_sublist _⟩
  | succ fuel ih =>
    intro st ds os hnd
    cases hq : st.queue with
    | nil => exact ⟨[], by simp [runLoop, hq], List.nil_sublist _⟩
    | cons ci rest =>
      by_cases ha : st.applyAllMode = true
      · cases os with
        | nil => exact ⟨[], by simp [runLoop, hq, ha], List.nil_sublist _⟩
        | cons r os2 =>
          cases r with
          | success =>
            obtain ⟨t, h1, h2⟩ := ih
              { st with
                queue := rest,
                lastApplied := some ci.hash,
                successesLog := st.successesLog ++ [ci.hash] } ds os2 hnd
            rw [ha] at h1 h2
            refine ⟨ci.hash :: t, ?_, ?_⟩
            · simp only [runLoop, hq, ha, if_true]
              rw [h1]
              simp
            · exact List.Sublist.cons₂ ci.hash h2
          | conflict =>
            exact ⟨[], by simp [runLoop, hq, ha], List.nil_sublist _⟩
          | failure e =>
            exact ⟨[], by simp [runLoop, hq, ha], List.nil_sublist _⟩
      · rw [Bool.not_eq_true] at ha
        cases ds with
        | nil => exact ⟨[], by simp [runLoop, hq, ha], List.nil_sublist _⟩
        | cons d ds2 =>
          have hd2 : Decision.defer ∉ ds2 := fun m => hnd (List.mem_cons_of_mem _ m)
          cases d with
          | yes =>
            cases os with
            | nil => exact ⟨[], by simp [runLoop, hq, ha], List.nil_sublist _⟩
            | cons r os2 =>
              cases r with
              | success =>
                obtain ⟨t, h1, h2⟩ := ih
                  { st with
                    queue := rest,
                    lastApplied := some ci.hash,
                    successesLog := st.successesLog ++ [ci.hash] } ds2 os2 hd2
                rw [ha] at h1 h2
                refine ⟨ci.hash :: t, ?_, ?_⟩
                · simp only [runLoop, hq, ha, if_false, Bool.false_eq_true]
                  rw [h1]
                  simp
                · exact List.Sublist.cons₂ ci.hash h2
              | conflict =>
                exact ⟨[], by simp [runLoop, hq, ha], List.nil_sublist _⟩
              | failure e =>
                exact ⟨[], by simp [runLoop, hq, ha], List.nil_sublist _⟩
          | no =>
            obtain ⟨t, h1, h2⟩ := ih
              { st with queue := rest, skipped := st.skipped ++ [ci] } ds2 os hd2
            rw [ha] at h1 h2
            refine ⟨t, by simp only [runLoop, hq, ha, if_false, Bool.false_eq_true]; rw [h1], ?_⟩
            exact List.Sublist.cons ci.hash h2
          | defer =>
            exact absurd (List.mem_cons_self _ _) hnd
          | applyAll =>
            obtain ⟨t, h1, h2⟩ := ih
              { st with queue := ci :: rest, applyAllMode := true } ds2 os hd2
            refine ⟨t, by simp only [runLoop, hq, ha, if_false, Bool.false_eq_true]; rw [h1], ?_⟩
            exact h2
          | quit =>
            exact ⟨[], by simp [runLoop, hq, ha], List.nil_sublist _⟩
          | diffFailSkip =>
            obtain ⟨t, h1, h2⟩ := ih
              { st with queue := rest, skipped := st.skipped ++ [ci] } ds2 os hd2
            refine ⟨t, ?_, ?_⟩
            · rw [ha] at h1
              simp only [runLoop, hq, ha, if_false, Bool.false_eq_true]
              rw [h1]
            · exact List.Sublist.cons ci.hash h2
          | diffFailQuit =>
            exact ⟨[], by simp [runLoop, hq, ha], List.nil_sublist _⟩

/- ---------------------------------------------------------------------
Claims about the orchestrator, discovery and the patch applier.
--------------------------------------------------------------------- -/

/-- C1 counterexample: with queue [a, b] ordered oldest first, the run
that defers a, applies b (Success) and then applies the re-queued a
(Success) persists cursor a, although b is the last commit in oldest-first
order that received a Success outcome. -/
theorem c1_counterexample :
    (handle_update_run ['z'] [⟨['a'], []⟩, ⟨['b'], []⟩]
        [.defer, .yes, .yes] [.success, .success] 5).successesLog
      = [['b'], ['a']]
    ∧ (handle_update_run ['z'] [⟨['a'], []⟩, ⟨['b'], []⟩]
        [.defer, .yes, .yes] [.success, .success] 5).lastApplied
      = some ['a']
    ∧ (['a'] : Str) ≠ ['b'] := by decide

/-- C1 amended: for every run, also one with deferred commits, the
persisted cursor after the run is either unchanged (no Success outcome)
or the hash of the last commit in processing order that received a
Success; when additionally no commit is deferred with Skip-for-now, the
Success outcomes form a subsequence of the oldest-first queue, so the
cursor is then the last commit in oldest-first order that succeeded. -/
theorem c1_cursor_processing_order (lastSyncedRef : Str)
    (queue : List CommitInfo) (decisions : List Decision)
    (outcomes : List ApplyResult) (fuel : Nat) :
    (handle_update_run lastSyncedRef queue decisions outcomes fuel).lastApplied
      = lastOr
          (handle_update_run lastSyncedRef queue decisions outcomes fuel).successesLog
          (some lastSyncedRef)
    ∧ (Decision.defer ∉ decisions →
        List.Sublist
          (handle_update_run lastSyncedRef queue decisions outcomes fuel).successesLog
          (queue.map CommitInfo.hash)) := by
  obtain ⟨t, h1, h2⟩ :=
    runLoop_lastApplied fuel (initState lastSyncedRef queue) decisions outcomes
  have e0 : (initState lastSyncedRef queue).successesLog = [] := rfl
  have e1 : (initState lastSyncedRef queue).lastApplied = some lastSyncedRef := rfl
  have e2 : (initState lastSyncedRef queue).queue = queue := rfl
  rw [e0, List.nil_append] at h1
  rw [e1] at h2
  constructor
  · simp only [handle_update_run]
    rw [h2, h1]
  · intro hnd
    obtain ⟨t2, h3, h4⟩ :=
      runLoop_no_defer fuel (initState lastSyncedRef queue) decisions outcomes hnd
    rw [e0, List.nil_append] at h3
    rw [e2] at h4
    simp only [handle_update_run]
    rw [h3]
    exact h4

theorem c1_cursor_processing_order_witness :
    ((handle_update_run ['z'] [⟨['a'], []⟩, ⟨['b'], []⟩]
        [.defer, .yes, .yes] [.success, .success] 5).lastApplied
      = lastOr
          (handle_update_run ['z'] [⟨['a'], []⟩, ⟨['b'], []⟩]
            [.defer, .yes, .yes] [.success, .success] 5).successesLog
          (some ['z']))
    ∧ Decision.defer ∉ ([.yes] : List Decision)
    ∧ List.Sublist
        (handle_update_run ['z'] [⟨['a'], []⟩] [.yes] [.success] 2).successesLog
        (([⟨['a'], []⟩] : List CommitInfo).map CommitInfo.hash) :=
  ⟨(c1_cursor_processing_order ['z'] [⟨['a'], []⟩, ⟨['b'], []⟩]
      [.defer, .yes, .yes] [.success, .success] 5).1,
    by decide,
    (c1_cursor_processing_order ['z'] [⟨['a'], []⟩] [.yes] [.success] 2).2
      (by decide)⟩

/-- C2 at the failing input: with queue [a, b] oldest first, skipping a
permanently and then applying b with Success leaves a in the skip list
and does not advance the cursor at the skip itself, but the Success on b
moves the persisted cursor to b; the next discovery range cursor..tip on
the history z, a, b is then empty, so the skipped commit a does not
reappear in future discovery, contradicting the claim (and the end-of-run
message that skipped commits will need review on the next run). -/
theorem c2_skipped_commit_lost :
    (handle_update_run ['z'] [⟨['a'], []⟩, ⟨['b'], []⟩]
        [.no, .yes] [.success] 5).skipped = [⟨['a'], []⟩]
    ∧ (handle_update_run ['z'] [⟨['a'], []⟩, ⟨['b'], []⟩]
        [.no, .yes] [.success] 5).lastApplied = some ['b']
    ∧ rangeAfter [['z'], ['a'], ['b']] ['b'] = []
    ∧ rangeAfter [['z'], ['a'], ['b']] ['z'] = [['a'], ['b']] := by decide

/-- C5: commit discovery with an absent cursor fails with the descriptive
GitOperation precondition error, and with a present cursor any failure it
returns is never that precondition error. -/
theorem c5_discovery_requires_cursor (world : GitWorld) (c : Str) :
    get_internal_commits_since world none
      = .error (.gitOperation msgNoSinceRef)
    ∧ ∀ e : PorterError,
        get_internal_commits_since world (some c) = .error e →
        e ≠ .gitOperation msgNoSinceRef := by
  refine ⟨rfl, ?_⟩
  intro e he
  cases hw : world.logRun with
  | ioErr cwd =>
    simp only [get_internal_commits_since, hw, Except.error.injEq] at he
    subst he
    simp
  | cmdFail cmd cwd status o er =>
    simp only [get_internal_commits_since, hw, Except.error.injEq] at he
    subst he
    simp
  | ok s =>
    simp only [get_internal_commits_since, hw] at he
    exact absurd he (by simp)

theorem c5_discovery_requires_cursor_witness :
    get_internal_commits_since ⟨true, .cmdFail ['g'] ['w'] ['1'] [] ['e']⟩ none
      = .error (.gitOperation msgNoSinceRef)
    ∧ (PorterError.gitCommand ['g'] ['w'] ['1'] [] ['e'])
      ≠ .gitOperation msgNoSinceRef :=
  ⟨(c5_discovery_requires_cursor ⟨true, .cmdFail ['g'] ['w'] ['1'] [] ['e']⟩ ['a']).1,
    (c5_discovery_requires_cursor ⟨true, .cmdFail ['g'] ['w'] ['1'] [] ['e']⟩ ['a']).2
      (.gitCommand ['g'] ['w'] ['1'] [] ['e']) rfl⟩

/-- C6: an empty relocated patch makes the applier return Success without
invoking the apply tool and without issuing an abort, and a commit whose
apply attempt yields Success has the cursor advanced past it by the
orchestrator, recorded in the success log. -/
theorem c6_empty_patch_is_noop_success (am : AmRun) (abortOk : Bool)
    (z : Str) (ci : CommitInfo) :
    apply_commit_to_output [] am abortOk = ⟨.success, false, false⟩
    ∧ (handle_update_run z [ci] [.yes] [.success] 2).lastApplied = some ci.hash
    ∧ (handle_update_run z [ci] [.yes] [.success] 2).successesLog = [ci.hash] := by
  refine ⟨?_, ?_, ?_⟩
  · simp [apply_commit_to_output]
  · simp [handle_update_run, initState, runLoop]
  · simp [handle_update_run, initState, runLoop]

/-- C7: asymmetric cleanup of the applier: a Conflict classification
never issues an am abort (the paused session is left for manual
resolution), a Failure classification always issues the best-effort am
abort first, and the outcome of the abort itself does not change the
returned result. -/
theorem c7_failure_aborts_conflict_does_not (patch : Str) (am : AmRun)
    (abortOk : Bool) :
    ((apply_commit_to_output patch am abortOk).result = .conflict →
      (apply_commit_to_output patch am abortOk).abortIssued = false)
    ∧ (∀ e : Str, (apply_commit_to_output patch am abortOk).result = .failure e →
      (apply_commit_to_output patch am abortOk).abortIssued = true)
    ∧ apply_commit_to_output patch am true = apply_commit_to_output patch am false := by
  unfold apply_commit_to_output
  by_cases h1 : patch.isEmpty = true
  · simp [h1]
  · by_cases h2 : am.exitOk = true
    · simp [h1, h2]
    · by_cases h3 : conflictIndicated am.stdout am.stderr = true
      · simp [h1, h2, h3]
      · simp [h1, h2, h3]

theorem c7_failure_aborts_conflict_does_not_witness :
    (apply_commit_to_output ['x'] ⟨false, "conflict".data, []⟩ true).abortIssued
      = false
    ∧ (apply_commit_to_output ['x'] ⟨false, [], []⟩ true).abortIssued = true :=
  ⟨(c7_failure_aborts_conflict_does_not ['x'] ⟨false, "conflict".data, []⟩ true).1
      (by decide),
    (c7_failure_aborts_conflict_does_not ['x'] ⟨false, [], []⟩ true).2.1 []
      (by decide)⟩

/-- C8 counterexample: with the argument list the applier actually passes
(which contains --committer-date-is-author-date), a patch with author
date 100 applied at local time 200 produces a commit whose committer
timestamp is 100, the original author date, not the local time 200
claimed by the spec. -/
theorem c8_counterexample :
    (amCommitMeta ⟨['a'], 100⟩ 200 amArgs).2 ≠ 200
    ∧ (amCommitMeta ⟨['a'], 100⟩ 200 amArgs).2 = 100 := by decide

/-- C8 amended: applying a relocated patch preserves the original author
and author date, and sets the committer timestamp to the original author
date (via the --committer-date-is-author-date flag), not the local
time. -/
theorem c8_metadata_preserved (patch : CommitMeta) (localNow : Nat) :
    amCommitMeta patch localNow amArgs = (patch, patch.authorDate)
    ∧ "--committer-date-is-author-date".data ∈ amArgs := by
  have h : "--committer-date-is-author-date".data ∈ amArgs := by decide
  exact ⟨by simp [amCommitMeta, h], h⟩

end OssPorter
